import Mathlib

/-
Verification of the serde-env decode engine (`src/de.rs`) against its
natural-language specification.

The deserializer in `src/de.rs` operates on `Node` values coming from
`src/value.rs`, which is not part of the sources at hand; the `Node` type and
its query operations are therefore modelled from the specification (sections 3
and 4.1), while every decoding operation below is translated directly from
`src/de.rs`.
-/

namespace SerdeEnv

/-- Modelled from the spec: the KeyTree node of `src/value.rs` (missing from
the sources). A node holds a raw string `value` (empty when no input key
terminates here) and a mapping from lowercase segment names to child nodes
(spec section 3). -/
inductive Node where
  | node (value : String) (children : List (String × Node))

/-- The raw string value stored at a node (`Node::value`). -/
def Node.value : Node → String
  | .node v _ => v

/-- The children mapping of a node. -/
def Node.children : Node → List (String × Node)
  | .node _ cs => cs

/-- Modelled from the spec: `Node::new` wraps a bare string value, no
children (used by `SeqAccessor::next_element_seed` for each element). -/
def Node.new (v : String) : Node := .node v []

/-- Modelled from the spec: `is_empty` is true iff the value is empty and the
children mapping is empty (spec section 4.1, value access). -/
def Node.is_empty : Node → Bool
  | .node v cs => v.data.isEmpty && cs.isEmpty

/-- Modelled from the spec: `has_children` (spec section 4.1, value access). -/
def Node.has_children : Node → Bool
  | .node _ cs => !cs.isEmpty

/-- Split a character list on a separator character; like Rust
`str::split(sep)`, the empty input yields one empty piece and a trailing
separator yields a trailing empty piece. -/
def splitOnChar (sep : Char) : List Char → List (List Char)
  | [] => [[]]
  | c :: rest =>
    match splitOnChar sep rest with
    | [] => [[]]
    | h :: t => if c = sep then [] :: h :: t else (c :: h) :: t

/-- Drop whitespace characters from both ends, like Rust `str::trim`
(restricted to ASCII whitespace, which covers every value in scope). -/
def trimChars (cs : List Char) : List Char :=
  ((cs.dropWhile Char.isWhitespace).reverse.dropWhile Char.isWhitespace).reverse

/-- ASCII lowercasing of a whole string, as applied to keys before tree
traversal (spec section 3). -/
def lowerAscii (s : String) : String := ⟨s.data.map Char.toLower⟩

/-- Walk the children mapping segment by segment. -/
def Node.getPath : Node → List String → Option Node
  | n, [] => some n
  | n, seg :: rest =>
    match n.children.lookup seg with
    | none => none
    | some c => c.getPath rest

/-- Modelled from the spec: `Node::get` lowercases the key, splits it on
underscores and walks the children; `none` when any segment is absent
(spec section 4.1, Query). -/
def Node.get (n : Node) (key : String) : Option Node :=
  n.getPath ((splitOnChar '_' (lowerAscii key).data).map (fun cs => (⟨cs⟩ : String)))

/-- The split-and-trim step shared by `deserialize_seq` and
`deserialize_tuple`: split the node's value on commas, trim each piece. -/
def splitCommaTrim (s : String) : List String :=
  (splitOnChar ',' s.data).map (fun cs => (⟨trimChars cs⟩ : String))

/-- `Deserializer::deserialize_seq` (src/de.rs:349-362): split the value on
commas, trim each element, and drop the empty ones. -/
def deserialize_seq (s : String) : List String :=
  ((splitOnChar ',' s.data).map (fun cs => (⟨trimChars cs⟩ : String))).filter
    (fun v => !v.data.isEmpty)

/-- `Deserializer::deserialize_tuple` (src/de.rs:364-376): the declared length
is ignored (it is bound as `_len`); split the value on commas and trim each
element, keeping empty ones. -/
def deserialize_tuple (_lenArg : Nat) (s : String) : List String :=
  (splitOnChar ',' s.data).map (fun cs => (⟨trimChars cs⟩ : String))

/-- Digit run to number, as `str::parse` does for digit-only input. -/
def digitsToNat (cs : List Char) : Nat :=
  cs.foldl (fun acc c => acc * 10 + (c.toNat - 48)) 0

/-- Rust `str::parse::<u64>` restricted to all-digit input: it fails exactly
when there is no digit or the value overflows `u64`. -/
def parseU64AllDigits (cs : List Char) : Option Nat :=
  if cs.isEmpty then none
  else if digitsToNat cs < 2 ^ 64 then some (digitsToNat cs) else none

/-- Rust `str::parse::<i64>` on a minus sign followed by the digits `ds`: it
fails exactly when there is no digit or the value underflows `i64`. -/
def parseI64NegDigits (ds : List Char) : Option Int :=
  if ds.isEmpty then none
  else if digitsToNat ds ≤ 2 ^ 63 then some (-(digitsToNat ds : Int)) else none

/-- Rust `eq_ignore_ascii_case`: equality after ASCII lowercasing. -/
def eqIgnoreAsciiCase (a b : List Char) : Bool :=
  (a.map Char.toLower) = (b.map Char.toLower)

/-- Outcome of `Deserializer::deserialize_any`, one constructor per visitor
method it can reach. -/
inductive Inferred where
  | noneVal
  | seq (elems : List String)
  | u64 (n : Nat)
  | i64 (n : Int)
  | boolVal (b : Bool)
  | str (s : String)
deriving DecidableEq

/-- `Deserializer::deserialize_any` (src/de.rs:166-207) on the byte/char list
of the node's value. The comma guard is the first arm of the `match`, so it is
checked before every other classification; the digit, minus and boolean arms
fall through to `deserialize_str` when their inner test fails. -/
def deserialize_any_chars (cs : List Char) : Inferred :=
  match cs with
  | [] => .noneVal
  | first :: rest =>
    if ',' ∈ first :: rest then .seq (deserialize_seq ⟨first :: rest⟩)
    else if first.isDigit then
      if (first :: rest).all Char.isDigit then
        match parseU64AllDigits (first :: rest) with
        | some n => .u64 n
        | none => .str ⟨first :: rest⟩
      else .str ⟨first :: rest⟩
    else if first = '-' then
      if rest.all Char.isDigit then
        match parseI64NegDigits rest with
        | some n => .i64 n
        | none => .str ⟨first :: rest⟩
      else .str ⟨first :: rest⟩
    else if first = 't' ∨ first = 'f' ∨ first = 'T' ∨ first = 'F' then
      if eqIgnoreAsciiCase (first :: rest) ['t', 'r', 'u', 'e'] then .boolVal true
      else if eqIgnoreAsciiCase (first :: rest) ['f', 'a', 'l', 's', 'e'] then .boolVal false
      else .str ⟨first :: rest⟩
    else .str ⟨first :: rest⟩

/-- `Deserializer::deserialize_any` on a node's value string. -/
def deserialize_any (s : String) : Inferred :=
  deserialize_any_chars s.data

/-- Outcome of `Deserializer::deserialize_option`. -/
inductive OptionOutcome where
  | absent
  | present (n : Node)

/-- `Deserializer::deserialize_option` (src/de.rs:327-336): `visit_none` when
the node is empty, otherwise `visit_some` on the very same node. -/
def deserialize_option (n : Node) : OptionOutcome :=
  if n.is_empty then .absent else .present n

/-- `MapAccessor::next_key_seed` (src/de.rs:467-491): advance through the
remaining candidate keys, skipping any key whose lookup in the node resolves
to nothing; return the first match with its value node and the rest of the
iterator, or `none` when the iterator is exhausted. The key-selection logic
only ever returns `Ok`. -/
def next_key_seed (n : Node) : List String → Except String (Option (String × Node × List String))
  | [] => .ok none
  | k :: rest =>
    match n.get k with
    | none => next_key_seed n rest
    | some v => .ok (some (k, v, rest))

/-- The full sequence of map entries a `MapAccessor` emits when driven over a
candidate key list: repeated `next_key_seed` / `next_value_seed` rounds. -/
def drainEntries (n : Node) : List String → List (String × Node)
  | [] => []
  | k :: rest =>
    match n.get k with
    | none => drainEntries n rest
    | some v => (k, v) :: drainEntries n rest

/-- `deserialize_struct` (src/de.rs:386-398) collects the field names into a
`HashSet<String>` and hands it to `MapAccessor::new` (src/de.rs:454-461),
whose iterator yields each distinct name exactly once in an unspecified
order. `order` is a possible iteration order of that set when it is built
from the element list `elems`. -/
def IsHashSetOrder (elems order : List String) : Prop :=
  order.Nodup ∧ ∀ k, k ∈ order ↔ k ∈ elems

/-- `EnumAccessor::variant_seed` (src/de.rs:524-537): find the first candidate
variant name equal to the node's value; on failure, a custom decode error. -/
def variant_seed (variants : List String) (n : Node) : Except String (String × Node) :=
  match variants.find? (fun key => n.value == key) with
  | some key => .ok (key, n)
  | none => .error ("no variant `" ++ n.value ++ "` found")

/-- `VariantAccessor::unit_variant` (src/de.rs:553-557). -/
def unit_variant (n : Node) : Except String Unit :=
  if n.has_children then .error "variant is not unit" else .ok ()

/-- `VariantAccessor::tuple_variant` (src/de.rs:565-570): the length and the
node are ignored and a custom decode error is always returned. -/
def tuple_variant (_lenArg : Nat) (_n : Node) : Except String Unit :=
  .error "tuple variant is not supported"

/-- Whether an `Except` computation succeeded. -/
def isOkE {α : Type} : Except String α → Bool
  | .ok _ => true
  | .error _ => false

/-- A concrete tree with two populated children, used as a test input. -/
def cNode : Node := .node "" [("a", Node.new "1"), ("b", Node.new "2")]

/-- Claim C1 as stated: for every field list, every possible iteration order
of the hash set built from it and every node, the emitted keys come out in
the field list's given order (equivalently, they are exactly the present
fields filtered in list order). -/
def StructFieldsInListOrder : Prop :=
  ∀ (fields order : List String) (n : Node),
    IsHashSetOrder fields order →
    (drainEntries n order).map Prod.fst = fields.filter (fun k => (n.get k).isSome)

/-- Claim C3 as stated: the scalar classification of `deserialize_any`, with
its final clause reading literally "any other value becomes a string" — with
no carve-out for values containing a comma. -/
def InferScalarClassification : Prop :=
  ∀ s : String,
    (s = "" → deserialize_any s = .noneVal)
    ∧ (s.data ≠ [] → s.data.all Char.isDigit = true →
        deserialize_any s = (match parseU64AllDigits s.data with
          | some n => Inferred.u64 n
          | none => Inferred.str s))
    ∧ (∀ ds, s.data = '-' :: ds → ds.all Char.isDigit = true →
        deserialize_any s = (match parseI64NegDigits ds with
          | some n => Inferred.i64 n
          | none => Inferred.str s))
    ∧ (eqIgnoreAsciiCase s.data ['t', 'r', 'u', 'e'] = true → deserialize_any s = .boolVal true)
    ∧ (eqIgnoreAsciiCase s.data ['f', 'a', 'l', 's', 'e'] = true → deserialize_any s = .boolVal false)
    ∧ (s ≠ "" → s.data.all Char.isDigit = false →
        (∀ ds, s.data = '-' :: ds → ds.all Char.isDigit = false) →
        eqIgnoreAsciiCase s.data ['t', 'r', 'u', 'e'] = false →
        eqIgnoreAsciiCase s.data ['f', 'a', 'l', 's', 'e'] = false →
        deserialize_any s = .str s)

/-- A string has empty character data exactly when it is the empty string. -/
theorem data_nil_iff (s : String) : s.data = [] ↔ s = "" := by
  constructor
  · intro h
    cases s with
    | mk l => rw [show l = String.data ⟨l⟩ from rfl, h]
  · intro h
    rw [h]

/-- `Char.ofNat` round-trips on valid code points. -/
theorem toNat_ofNat_valid (n : Nat) (h : n.isValidChar) : (Char.ofNat n).toNat = n := by
  rw [Char.ofNat, dif_pos h]
  rfl

/-- Lowercasing an ASCII uppercase letter adds 32 to its code point. -/
theorem char_toLower_shift (c lo : Char) (h : c.toLower = lo)
    (hc : 65 ≤ c.toNat ∧ c.toNat ≤ 90) : lo.toNat = c.toNat + 32 := by
  have hval : (c.toNat + 32).isValidChar := by
    left
    omega
  have h2 := toNat_ofNat_valid (c.toNat + 32) hval
  rw [show Char.toLower c = Char.ofNat (c.toNat + 32) from by
    simp only [Char.toLower]
    rw [if_pos hc]] at h
  rw [h] at h2
  exact h2

/-- A character that lowercases to the letter `lo` is either `lo` itself or
the corresponding uppercase letter `up`. -/
theorem toLower_inv (c lo up : Char) (h : c.toLower = lo)
    (h3 : up.toNat + 32 = lo.toNat) : c = lo ∨ c = up := by
  by_cases hc : 65 ≤ c.toNat ∧ c.toNat ≤ 90
  · right
    have hs := char_toLower_shift c lo h hc
    have hcn : c.toNat = up.toNat := by omega
    have he := (Char.ofNat_toNat c).symm
    rw [hcn, Char.ofNat_toNat] at he
    exact he
  · left
    rw [show Char.toLower c = c from by
      simp only [Char.toLower]
      rw [if_neg hc]] at h
    exact h

/-- A value that case-insensitively equals `true` infers to boolean true. -/
theorem infer_ci_true (l : List Char) (h : l.map Char.toLower = ['t', 'r', 'u', 'e']) :
    deserialize_any_chars l = .boolVal true := by
  cases l with
  | nil => simp at h
  | cons a l1 =>
  cases l1 with
  | nil => simp at h
  | cons b l2 =>
  cases l2 with
  | nil => simp at h
  | cons c l3 =>
  cases l3 with
  | nil => simp at h
  | cons d l4 =>
  cases l4 with
  | cons e l5 => simp at h
  | nil =>
    simp only [List.map_cons, List.map_nil, List.cons.injEq, and_true] at h
    obtain ⟨ha, hb, hc, hd⟩ := h
    rcases toLower_inv a 't' 'T' ha (by decide) with rfl | rfl <;>
    rcases toLower_inv b 'r' 'R' hb (by decide) with rfl | rfl <;>
    rcases toLower_inv c 'u' 'U' hc (by decide) with rfl | rfl <;>
    rcases toLower_inv d 'e' 'E' hd (by decide) with rfl | rfl <;>
    decide

/-- A value that case-insensitively equals `false` infers to boolean false. -/
theorem infer_ci_false (l : List Char) (h : l.map Char.toLower = ['f', 'a', 'l', 's', 'e']) :
    deserialize_any_chars l = .boolVal false := by
  cases l with
  | nil => simp at h
  | cons a l1 =>
  cases l1 with
  | nil => simp at h
  | cons b l2 =>
  cases l2 with
  | nil => simp at h
  | cons c l3 =>
  cases l3 with
  | nil => simp at h
  | cons d l4 =>
  cases l4 with
  | nil => simp at h
  | cons e l5 =>
  cases l5 with
  | cons f l6 => simp at h
  | nil =>
    simp only [List.map_cons, List.map_nil, List.cons.injEq, and_true] at h
    obtain ⟨ha, hb, hc, hd, he⟩ := h
    rcases toLower_inv a 'f' 'F' ha (by decide) with rfl | rfl <;>
    rcases toLower_inv b 'a' 'A' hb (by decide) with rfl | rfl <;>
    rcases toLower_inv c 'l' 'L' hc (by decide) with rfl | rfl <;>
    rcases toLower_inv d 's' 'S' hd (by decide) with rfl | rfl <;>
    rcases toLower_inv e 'e' 'E' he (by decide) with rfl | rfl <;>
    decide

/-- An all-digit value reaches the `u64` parse, with string fallback. -/
theorem infer_all_digits (l : List Char) (hne : l ≠ [])
    (hall : l.all Char.isDigit = true) :
    deserialize_any_chars l = (match parseU64AllDigits l with
      | some n => Inferred.u64 n
      | none => Inferred.str ⟨l⟩) := by
  cases l with
  | nil => exact absurd rfl hne
  | cons a t =>
    have hdig : a.isDigit = true := List.all_eq_true.mp hall a (List.mem_cons_self a t)
    have hnc : ¬ (',' ∈ a :: t) := by
      intro hm
      have := List.all_eq_true.mp hall ',' hm
      exact absurd this (by decide)
    simp only [deserialize_any_chars]
    rw [if_neg hnc, if_pos hdig, if_pos hall]

/-- A minus sign followed by digits reaches the `i64` parse, with string
fallback. -/
theorem infer_neg_digits (t : List Char) (hall : t.all Char.isDigit = true) :
    deserialize_any_chars ('-' :: t) = (match parseI64NegDigits t with
      | some n => Inferred.i64 n
      | none => Inferred.str ⟨'-' :: t⟩) := by
  have hnc : ¬ (',' ∈ '-' :: t) := by
    intro hm
    rcases List.mem_cons.mp hm with h | h
    · exact absurd h (by decide)
    · have := List.all_eq_true.mp hall ',' h
      exact absurd this (by decide)
  have hdig : ¬ (Char.isDigit '-' = true) := by decide
  simp only [deserialize_any_chars]
  rw [if_neg hnc, if_neg hdig, if_pos trivial, if_pos hall]

/-- A nonempty value with no comma that matches none of the scalar
classifications falls back to a string. -/
theorem infer_other (l : List Char) (hne : l ≠ []) (hnc : ¬ (',' ∈ l))
    (hnd : l.all Char.isDigit = false)
    (hneg : ∀ ds, l = '-' :: ds → ds.all Char.isDigit = false)
    (ht : eqIgnoreAsciiCase l ['t', 'r', 'u', 'e'] = false)
    (hf : eqIgnoreAsciiCase l ['f', 'a', 'l', 's', 'e'] = false) :
    deserialize_any_chars l = .str ⟨l⟩ := by
  cases l with
  | nil => exact absurd rfl hne
  | cons a t =>
    simp only [deserialize_any_chars]
    rw [if_neg hnc]
    by_cases hdig : a.isDigit = true
    · rw [if_pos hdig, if_neg (by rw [hnd]; exact Bool.false_ne_true)]
    · rw [if_neg hdig]
      by_cases hm : a = '-'
      · subst hm
        rw [if_pos rfl, if_neg (by rw [hneg t rfl]; exact Bool.false_ne_true)]
      · rw [if_neg hm]
        by_cases htf : a = 't' ∨ a = 'f' ∨ a = 'T' ∨ a = 'F'
        · rw [if_pos htf, if_neg (by rw [ht]; exact Bool.false_ne_true),
            if_neg (by rw [hf]; exact Bool.false_ne_true)]
        · rw [if_neg htf]

/-- The keys emitted by draining a `MapAccessor` are the candidate keys whose
lookup succeeds, in candidate order. -/
theorem drain_map_fst (n : Node) : ∀ keys : List String,
    (drainEntries n keys).map Prod.fst = keys.filter (fun k => (n.get k).isSome)
  | [] => rfl
  | k :: rest => by
    cases h : n.get k with
    | none => simp [drainEntries, h, List.filter_cons, drain_map_fst n rest]
    | some v => simp [drainEntries, h, List.filter_cons, drain_map_fst n rest]

/-- The key-selection loop of `next_key_seed` always returns `Ok`. -/
theorem next_key_seed_never_errors (n : Node) : ∀ keys : List String,
    ∃ r, next_key_seed n keys = Except.ok r
  | [] => ⟨none, rfl⟩
  | k :: rest => by
    cases h : n.get k with
    | none => simpa [next_key_seed, h] using next_key_seed_never_errors n rest
    | some v => exact ⟨some (k, v, rest), by simp [next_key_seed, h]⟩

/-- Claim C1, counterexample: the claim as stated is false. With field list
`["a", "b"]`, the reversed order `["b", "a"]` is a legitimate iteration order
of the hash set built from it, and on a node carrying both fields the entries
come out as `["b", "a"]`, not in the list's given order `["a", "b"]`. -/
theorem struct_order_counterexample : ¬ StructFieldsInListOrder := by
  intro h
  have hord : IsHashSetOrder ["a", "b"] ["b", "a"] := by
    refine ⟨by decide, fun k => ?_⟩
    simp only [List.mem_cons, List.mem_singleton, List.not_mem_nil, or_false]
    tauto
  exact absurd (h ["a", "b"] ["b", "a"] cNode hord) (by decide)

/-- Claim C1 (amended): when decoding a struct, the fields are requested in
the iteration order of the hash set built from the field-name list — an
unspecified order that need not be the list's given order. Each emitted key
is a distinct supplied field name whose lookup succeeds, each such field is
emitted exactly once (the emitted key list has no duplicates), and a field
absent from the tree is never emitted. -/
theorem struct_fields_set_order (fields order : List String) (n : Node)
    (h : IsHashSetOrder fields order) :
    (drainEntries n order).map Prod.fst = order.filter (fun k => (n.get k).isSome)
    ∧ ((drainEntries n order).map Prod.fst).Nodup
    ∧ (∀ k, k ∈ (drainEntries n order).map Prod.fst → k ∈ fields ∧ (n.get k).isSome = true)
    ∧ (∀ k, n.get k = none → k ∉ (drainEntries n order).map Prod.fst) := by
  obtain ⟨hnd, hmem⟩ := h
  rw [drain_map_fst]
  refine ⟨rfl, hnd.filter _, fun k hk => ?_, fun k hk hm => ?_⟩
  · have h1 := List.mem_of_mem_filter hk
    have h2 := List.of_mem_filter hk
    exact ⟨(hmem k).mp h1, by simpa using h2⟩
  · have h2 := List.of_mem_filter hm
    simp [hk] at h2

/-- Claim C1, witness: the amended theorem applied to the concrete field list
`["a", "b"]`, iteration order `["b", "a"]` and the two-child tree `cNode`. -/
theorem struct_fields_set_order_witness :
    ((drainEntries cNode ["b", "a"]).map Prod.fst).Nodup
    ∧ (drainEntries cNode ["b", "a"]).map Prod.fst
        = (["b", "a"] : List String).filter (fun k => (cNode.get k).isSome) := by
  have hord : IsHashSetOrder ["a", "b"] ["b", "a"] := by
    refine ⟨by decide, fun k => ?_⟩
    simp only [List.mem_cons, List.mem_singleton, List.not_mem_nil, or_false]
    tauto
  have h := struct_fields_set_order ["a", "b"] ["b", "a"] cNode hord
  exact ⟨h.2.1, h.1⟩

/-- Claim C2: under the infer hint, the comma check comes before every other
classification: any value containing a comma decodes as a (plain-semantics)
sequence; in particular `1,2` is a sequence and never an integer. -/
theorem infer_comma_is_sequence :
    (∀ s : String, ',' ∈ s.data → deserialize_any s = .seq (deserialize_seq s))
    ∧ deserialize_any "1,2" = .seq ["1", "2"]
    ∧ (∀ k : Nat, deserialize_any "1,2" ≠ .u64 k)
    ∧ (∀ i : Int, deserialize_any "1,2" ≠ .i64 i) := by
  refine ⟨fun s hs => ?_, by decide, ?_, ?_⟩
  · obtain ⟨a, t, hd⟩ : ∃ a t, s.data = a :: t := by
      cases hsd : s.data with
      | nil => rw [hsd] at hs; cases hs
      | cons a t => exact ⟨a, t, rfl⟩
    have hs2 : s = (⟨a :: t⟩ : String) := by rw [← hd]
    subst hs2
    show deserialize_any_chars (a :: t) = _
    simp only [deserialize_any_chars]
    rw [if_pos (hd ▸ hs)]
  · intro k hk
    rw [show deserialize_any "1,2" = Inferred.seq ["1", "2"] from by decide] at hk
    exact Inferred.noConfusion hk
  · intro i hi
    rw [show deserialize_any "1,2" = Inferred.seq ["1", "2"] from by decide] at hi
    exact Inferred.noConfusion hi

/-- Claim C2, witness: the comma rule applied to the concrete value `1,2`. -/
theorem infer_comma_witness :
    deserialize_any "1,2" = Inferred.seq (deserialize_seq "1,2") :=
  infer_comma_is_sequence.1 "1,2" (by decide)

/-- Claim C3, counterexample: the claim as stated is false. The value `1,2`
is nonempty, is not all digits, is not a minus sign followed by digits, and is
not case-insensitively `true` or `false`, so the claim's final clause says it
becomes a string — but the code decodes it as a sequence. -/
theorem infer_scalar_counterexample : ¬ InferScalarClassification := by
  intro h
  have h6 := (h "1,2").2.2.2.2.2
  have hres : deserialize_any "1,2" = .str "1,2" := by
    apply h6
    · decide
    · decide
    · intro ds hds
      rw [show String.data "1,2" = ['1', ',', '2'] from rfl] at hds
      injection hds with h1 _
      exact absurd h1 (by decide)
    · decide
    · decide
  exact absurd hres (by decide)

/-- Claim C3 (amended): under the infer hint, for every node: an empty value
is treated as absent; an all-digit value is parsed as an unsigned integer,
falling back to string when the parse fails; a single leading minus followed
by all digits is parsed as a signed integer, falling back to string when the
parse fails; a value case-insensitively equal to `true` or `false` becomes
the corresponding boolean; and any other value **that does not contain a
comma** becomes a string (a comma-containing value is a sequence instead). -/
theorem infer_scalar_classification_amended (s : String) :
    (s = "" → deserialize_any s = .noneVal)
    ∧ (s.data ≠ [] → s.data.all Char.isDigit = true →
        deserialize_any s = (match parseU64AllDigits s.data with
          | some n => Inferred.u64 n
          | none => Inferred.str s))
    ∧ (∀ ds, s.data = '-' :: ds → ds.all Char.isDigit = true →
        deserialize_any s = (match parseI64NegDigits ds with
          | some n => Inferred.i64 n
          | none => Inferred.str s))
    ∧ (eqIgnoreAsciiCase s.data ['t', 'r', 'u', 'e'] = true → deserialize_any s = .boolVal true)
    ∧ (eqIgnoreAsciiCase s.data ['f', 'a', 'l', 's', 'e'] = true → deserialize_any s = .boolVal false)
    ∧ (s ≠ "" → ¬ (',' ∈ s.data) → s.data.all Char.isDigit = false →
        (∀ ds, s.data = '-' :: ds → ds.all Char.isDigit = false) →
        eqIgnoreAsciiCase s.data ['t', 'r', 'u', 'e'] = false →
        eqIgnoreAsciiCase s.data ['f', 'a', 'l', 's', 'e'] = false →
        deserialize_any s = .str s) := by
  refine ⟨?_, ?_, ?_, ?_, ?_, ?_⟩
  · intro h
    subst h
    rfl
  · intro h1 h2
    exact infer_all_digits s.data h1 h2
  · intro ds hds h2
    have hs : s = (⟨'-' :: ds⟩ : String) := by rw [← hds]
    subst hs
    exact infer_neg_digits ds h2
  · intro h
    apply infer_ci_true
    have h2 := of_decide_eq_true h
    rw [h2]
    decide
  · intro h
    apply infer_ci_false
    have h2 := of_decide_eq_true h
    rw [h2]
    decide
  · intro h1 h2 h3 h4 h5 h6
    exact infer_other s.data (fun hn => h1 ((data_nil_iff s).mp hn)) h2 h3 h4 h5 h6

/-- Claim C3, witness: the amended classification applied to the concrete
values `123`, `-123`, `TrUe` and `hello`. -/
theorem infer_scalar_witness :
    deserialize_any "123" = Inferred.u64 123
    ∧ deserialize_any "-123" = Inferred.i64 (-123)
    ∧ deserialize_any "TrUe" = Inferred.boolVal true
    ∧ deserialize_any "hello" = Inferred.str "hello" := by
  refine ⟨?_, ?_, ?_, ?_⟩
  · have h := (infer_scalar_classification_amended "123").2.1 (by decide) (by decide)
    rw [h]
    decide
  · have h := (infer_scalar_classification_amended "-123").2.2.1 ['1', '2', '3'] rfl (by decide)
    rw [h]
    decide
  · exact (infer_scalar_classification_amended "TrUe").2.2.2.1 (by decide)
  · apply (infer_scalar_classification_amended "hello").2.2.2.2.2 (by decide) (by decide)
      (by decide) ?_ (by decide) (by decide)
    intro ds hds
    rw [show String.data "hello" = ['h', 'e', 'l', 'l', 'o'] from rfl] at hds
    injection hds with h1 _
    exact absurd h1 (by decide)

/-- Claim C4: sequence and fixed-tuple decoding both split on commas and trim
each element; plain-sequence decoding additionally drops empty elements while
fixed-tuple decoding keeps them. Concretely, `1, 2, 3 ` yields
`["1","2","3"]` under both, the empty string yields no elements under
plain-sequence semantics, and `1,2,` yields two elements as a plain sequence
but three (the last empty) as a fixed tuple. -/
theorem seq_tuple_semantics :
    (∀ (s : String) (len : Nat),
        deserialize_tuple len s = splitCommaTrim s
        ∧ deserialize_seq s = (deserialize_tuple len s).filter (fun v => !v.data.isEmpty))
    ∧ deserialize_seq "1, 2, 3 " = ["1", "2", "3"]
    ∧ deserialize_tuple 3 "1, 2, 3 " = ["1", "2", "3"]
    ∧ deserialize_seq "" = []
    ∧ deserialize_seq "1,2," = ["1", "2"]
    ∧ deserialize_tuple 3 "1,2," = ["1", "2", ""] :=
  ⟨fun _ _ => ⟨rfl, rfl⟩, by decide, by decide, by decide, by decide, by decide⟩

/-- Claim C5: enum variant matching is exact, case-sensitive string equality
against the candidate list; success happens iff some candidate equals the
node's value, and otherwise decoding fails with exactly the message
`no variant <value> found` (value in backticks). -/
theorem enum_variant_exact_match (variants : List String) (n : Node) :
    (n.value ∈ variants → variant_seed variants n = .ok (n.value, n))
    ∧ (n.value ∉ variants →
        variant_seed variants n = .error ("no variant `" ++ n.value ++ "` found"))
    ∧ (isOkE (variant_seed variants n) = true ↔ n.value ∈ variants) := by
  cases h : variants.find? (fun key => n.value == key) with
  | none =>
    have hall := List.find?_eq_none.mp h
    have hnot : n.value ∉ variants := fun hm => hall _ hm (by simp)
    refine ⟨fun hm => absurd hm hnot, fun _ => ?_, ?_⟩
    · unfold variant_seed
      rw [h]
    · unfold variant_seed
      rw [h]
      simp [isOkE, hnot]
  | some key =>
    have hp : (n.value == key) = true := List.find?_some h
    have hkey : key = n.value := (eq_of_beq hp).symm
    have hmem : key ∈ variants := List.mem_of_find?_eq_some h
    subst hkey
    refine ⟨fun _ => ?_, fun hm => absurd hmem hm, ?_⟩
    · unfold variant_seed
      rw [h]
    · unfold variant_seed
      rw [h]
      simp [isOkE, hmem]

/-- Claim C5, witness: matching applied to concrete variant lists; `X`
matches and `Q` produces the exact error message. -/
theorem enum_variant_witness :
    variant_seed ["X", "Y"] (Node.new "X") = Except.ok ("X", Node.new "X")
    ∧ variant_seed ["X", "Y"] (Node.new "Q") = Except.error "no variant `Q` found" :=
  ⟨(enum_variant_exact_match ["X", "Y"] (Node.new "X")).1 (by decide),
   (enum_variant_exact_match ["X", "Y"] (Node.new "Q")).2.1 (by decide)⟩

/-- Claim C6: during struct and map decoding, a candidate key whose lookup in
the current node resolves to nothing is silently skipped — it is never
emitted as an entry — and the key-selection loop never produces an error. -/
theorem missing_key_skipped (n : Node) (keys : List String) (k : String)
    (h : n.get k = none) :
    k ∉ (drainEntries n keys).map Prod.fst
    ∧ ∃ r, next_key_seed n keys = Except.ok r := by
  refine ⟨?_, next_key_seed_never_errors n keys⟩
  rw [drain_map_fst]
  intro hk
  have h2 := List.of_mem_filter hk
  simp [h] at h2

/-- Claim C6, witness: the key `zzz` is absent from `cNode` and is skipped
without error. -/
theorem missing_key_skipped_witness :
    ("zzz" ∉ (drainEntries cNode ["zzz", "a"]).map Prod.fst)
    ∧ ∃ r, next_key_seed cNode ["zzz", "a"] = Except.ok r :=
  missing_key_skipped cNode ["zzz", "a"] "zzz" rfl

/-- Claim C7: optional decoding yields absent exactly when the node is empty
(empty value and no children); otherwise it decodes the very same node as
present. -/
theorem option_absent_iff (n : Node) :
    (deserialize_option n = .absent ↔ n.is_empty = true)
    ∧ (n.is_empty = false → deserialize_option n = .present n) := by
  cases h : n.is_empty with
  | true => simp [deserialize_option, h]
  | false => simp [deserialize_option, h]

/-- Claim C7, witness: an empty node is absent; a node with a value is
present as itself. -/
theorem option_absent_witness :
    deserialize_option (Node.new "") = OptionOutcome.absent
    ∧ deserialize_option (Node.new "x") = OptionOutcome.present (Node.new "x") :=
  ⟨(option_absent_iff (Node.new "")).1.mpr rfl, (option_absent_iff (Node.new "x")).2 rfl⟩

/-- Claim C8: decoding a matched variant as a unit payload succeeds iff the
node has no children; with children it fails with exactly the message
`variant is not unit`. -/
theorem unit_variant_characterization (n : Node) :
    (unit_variant n = .ok () ↔ n.has_children = false)
    ∧ (n.has_children = true → unit_variant n = .error "variant is not unit") := by
  cases h : n.has_children with
  | true => simp [unit_variant, h]
  | false => simp [unit_variant, h]

/-- Claim C8, witness: a leaf variant node is a unit; a node with a child is
rejected. -/
theorem unit_variant_witness :
    unit_variant (Node.new "X") = Except.ok ()
    ∧ unit_variant (Node.node "Y" [("bar", Node.new "xxx")]) = Except.error "variant is not unit" :=
  ⟨(unit_variant_characterization (Node.new "X")).1.mpr rfl,
   (unit_variant_characterization (Node.node "Y" [("bar", Node.new "xxx")])).2 rfl⟩

/-- Claim C9: requesting a positional-tuple payload for a matched variant
always fails with the decode error `tuple variant is not supported`; there is
no length and no node for which it succeeds. -/
theorem tuple_variant_always_fails :
    ∀ (len : Nat) (n : Node),
      tuple_variant len n = .error "tuple variant is not supported"
      ∧ ∀ u : Unit, tuple_variant len n ≠ .ok u :=
  fun _ _ => ⟨rfl, fun _ hu => Except.noConfusion hu⟩

/-- Claim C9, witness: the tuple-variant failure at a concrete length and
node. -/
theorem tuple_variant_witness :
    tuple_variant 2 (Node.new "X") = Except.error "tuple variant is not supported" :=
  (tuple_variant_always_fails 2 (Node.new "X")).1

/-- Claim C10: fixed-tuple decoding ignores the declared tuple length
entirely: the result is the same for every length, it equals the
comma-splitting of the value with empties kept, and its element count is
exactly the number of comma-separated pieces, never compared against the
declared length. -/
theorem tuple_length_independent :
    ∀ (len len2 : Nat) (s : String),
      deserialize_tuple len s = deserialize_tuple len2 s
      ∧ deserialize_tuple len s
          = (splitOnChar ',' s.data).map (fun cs => (⟨trimChars cs⟩ : String))
      ∧ (deserialize_tuple len s).length = (splitOnChar ',' s.data).length := by
  intro len len2 s
  exact ⟨rfl, rfl, by simp [deserialize_tuple]⟩

end SerdeEnv
